import Mathlib

/-!
Verification of the variable-definition parser of the house-prices
utilities.  The parser scans a line-oriented documentation file and emits
variable-definition records.  We embed the two parser modules
(parse_variables.py and qualitative_variables.py) and the consumer helpers
(utils.py) as executable Lean definitions over lists of characters, and
prove the specified properties about them.
-/

set_option maxRecDepth 10000

/-- Python whitespace test for the characters relevant here: the ASCII
whitespace characters together with the latin-1 NEL and NBSP, which
Python class str treats as whitespace when stripping. -/
def isPySpace (c : Char) : Bool :=
  c = ' ' || c = '\t' || c = '\n' || c = '\r' ||
  c = Char.ofNat 11 || c = Char.ofNat 12 || c = Char.ofNat 133 || c = Char.ofNat 160

/-- Python str.strip: remove leading and trailing whitespace. -/
def pyStrip (s : List Char) : List Char :=
  ((s.dropWhile isPySpace).reverse.dropWhile isPySpace).reverse

/-- A line is blank when stripping it leaves nothing, i.e. every character
is whitespace. -/
def isBlank (line : List Char) : Bool :=
  line.all isPySpace

/-- Split file contents into lines, keeping the trailing newline on each
line, as iterating over a Python text file does. -/
def splitLinesAux (cs : List Char) (acc : List Char) : List (List Char) :=
  match cs with
  | [] => if acc.isEmpty then [] else [acc.reverse]
  | c :: rest =>
    if c = '\n' then (acc.reverse ++ ['\n']) :: splitLinesAux rest []
    else splitLinesAux rest (c :: acc)

def splitLines (cs : List Char) : List (List Char) :=
  splitLinesAux cs []

/-- One parsed variable definition: the dict built by the parsers, with
the values key optional. -/
structure Definition where
  name : List Char
  kind : List Char
  values : Option (List (List Char))
deriving DecidableEq

/-- The regex P_VALUE: seven literal spaces, then one or more non-tab
characters (the value), then a tab, matched at the start of the line.
Returns the raw captured value group. -/
def matchValue (line : List Char) : Option (List Char) :=
  if line.take 7 = List.replicate 7 ' ' then
    let rest := line.drop 7
    let v := rest.takeWhile (fun c => !(c = '\t'))
    if 0 < v.length ∧ v.length < rest.length then some v else none
  else none

/-- The header regexes: one or more non-paren characters (the name), a
literal open paren, one of the keywords, a close paren, optionally
whitespace (only when allowWs, i.e. the regex has a star of whitespace
before the colon), then a colon; matched at the start of the line.
Returns the raw name and kind capture groups. -/
def matchHeader (kws : List (List Char)) (allowWs : Bool) (line : List Char) :
    Option (List Char × List Char) :=
  let name := line.takeWhile (fun c => !(c = '('))
  if name.length = 0 ∨ name.length = line.length then none
  else
    match kws.find? (fun kw => kw.isPrefixOf (line.drop (name.length + 1))) with
    | none => none
    | some kw =>
      let rest2 := (line.drop (name.length + 1)).drop kw.length
      if rest2.head? = some ')' then
        let after := rest2.tail.dropWhile (fun c => allowWs && isPySpace c)
        if after.head? = some ':' then some (name, kw) else none
      else none

namespace ParseVariables

/-- P_QUALITATIVE of parse_variables.py: name, open paren, Nominal or
Ordinal, close paren, optional whitespace, colon. -/
def P_QUALITATIVE (line : List Char) : Option (List Char × List Char) :=
  matchHeader [("Nominal").toList, ("Ordinal").toList] true line

/-- P_QUANTITATIVE of parse_variables.py: name, open paren, Discrete or
Continuous, close paren, optional whitespace, colon. -/
def P_QUANTITATIVE (line : List Char) : Option (List Char × List Char) :=
  matchHeader [("Discrete").toList, ("Continuous").toList] true line

/-- The loop state of parse_definitions: the in_definition flag, the
name and kind local variables, the accumulated values, and the emitted
definitions. -/
structure St where
  in_definition : Bool
  name : List Char
  kind : List Char
  values : List (List Char)
  defs : List Definition
deriving DecidableEq

def initSt : St := ⟨false, [], [], [], []⟩

/-- The header-checking part of the loop body, reached when no definition
is open after the value-handling part: try P_QUALITATIVE, then (still in
the same guarded block) try P_QUANTITATIVE. -/
def stepHeaders (s : St) (line : List Char) : St :=
  let s2 :=
    match P_QUALITATIVE line with
    | some (n, k) => { s with name := pyStrip n, kind := pyStrip k, in_definition := true }
    | none => s
  match P_QUANTITATIVE line with
  | some (n, k) =>
    { s2 with name := pyStrip n, kind := pyStrip k,
              defs := s2.defs ++ [⟨pyStrip n, pyStrip k, none⟩] }
  | none => s2

/-- One iteration of the parse_definitions loop of parse_variables.py on
one line: skip blank lines; while a definition is open, append a matching
value or close the definition; when no definition is open, check the two
header patterns. -/
def step (s : St) (line : List Char) : St :=
  if isBlank line then s
  else
    let s1 :=
      if s.in_definition then
        match matchValue line with
        | some v => { s with values := s.values ++ [pyStrip v] }
        | none =>
          { s with defs := s.defs ++ [⟨s.name, s.kind, some s.values⟩],
                   in_definition := false, values := [] }
      else s
    if s1.in_definition then s1 else stepHeaders s1 line

/-- The final loop state after all lines. -/
def finalState (lines : List (List Char)) : St :=
  lines.foldl step initSt

/-- parse_definitions of parse_variables.py, over the sequence of lines
of the file: the definitions accumulated by the loop (a definition still
open at end of input is not emitted). -/
def parse_definitions (lines : List (List Char)) : List Definition :=
  (finalState lines).defs

/-- parse_definitions applied to whole file contents. -/
def parse_file (contents : List Char) : List Definition :=
  parse_definitions (splitLines contents)

end ParseVariables

namespace QualitativeVariables

/-- P_QUANTITATIVE of qualitative_variables.py (despite the name it
matches the qualitative kinds): name, open paren, Nominal or Ordinal,
close paren, then a colon immediately, with no whitespace allowed. -/
def P_QUANTITATIVE (line : List Char) : Option (List Char × List Char) :=
  matchHeader [("Nominal").toList, ("Ordinal").toList] false line

/-- One iteration of the parse_definitions loop of
qualitative_variables.py: like the other module but with only the one
header pattern, which opens a definition and emits nothing by itself. -/
def step (s : ParseVariables.St) (line : List Char) : ParseVariables.St :=
  if isBlank line then s
  else
    let s1 :=
      if s.in_definition then
        match matchValue line with
        | some v => { s with values := s.values ++ [pyStrip v] }
        | none =>
          { s with defs := s.defs ++ [⟨s.name, s.kind, some s.values⟩],
                   in_definition := false, values := [] }
      else s
    if s1.in_definition then s1
    else
      match P_QUANTITATIVE line with
      | some (n, k) => { s1 with name := pyStrip n, kind := pyStrip k, in_definition := true }
      | none => s1

def finalState (lines : List (List Char)) : ParseVariables.St :=
  lines.foldl step ParseVariables.initSt

/-- parse_definitions of qualitative_variables.py. -/
def parse_definitions (lines : List (List Char)) : List Definition :=
  (finalState lines).defs

def parse_file (contents : List Char) : List Definition :=
  parse_definitions (splitLines contents)

end QualitativeVariables

namespace Utils

/-- The attributes record built by load_variables: the kind, and the
values exactly when the definition carried them. -/
structure Attrs where
  kind : List Char
  values : Option (List (List Char))
deriving DecidableEq

/-- make_pair of load_variables: name paired with an attributes record
holding kind and, if the definition has a values key, values. -/
def make_pair (d : Definition) : List Char × Attrs :=
  (d.name, ⟨d.kind, d.values⟩)

/-- One insertion into an ordered dictionary: an existing key keeps its
position and gets the new value, a new key is appended. -/
def odInsert (m : List (List Char × Attrs)) (k : List Char) (v : Attrs) :
    List (List Char × Attrs) :=
  if (m.map Prod.fst).contains k then
    m.map (fun p => if p.1 = k then (k, v) else p)
  else m ++ [(k, v)]

/-- load_variables: build the ordered mapping from the list of parsed
definitions by inserting each name-attributes pair in order. -/
def load_variables (defs : List Definition) : List (List Char × Attrs) :=
  defs.foldl (fun m d => odInsert m (make_pair d).1 (make_pair d).2) []

/-- is_qualitative of utils.py. -/
def is_qualitative (a : Attrs) : Bool :=
  [("Nominal").toList, ("Ordinal").toList].contains a.kind

/-- is_quantitative of utils.py. -/
def is_quantitative (a : Attrs) : Bool :=
  [("Discrete").toList, ("Continuous").toList].contains a.kind

end Utils

/-! Helper lemmas. -/

theorem foldl_invariant {α β : Type} (P : α → Prop) (f : α → β → α)
    (hstep : ∀ s l, P s → P (f s l)) :
    ∀ (lines : List β) (s : α), P s → P (lines.foldl f s) := by
  intro lines
  induction lines with
  | nil => intro s hs; simpa using hs
  | cons l rest ih => intro s hs; simpa using ih (f s l) (hstep s l hs)

theorem PV_step_blank {s : ParseVariables.St} {line : List Char}
    (h : isBlank line = true) : ParseVariables.step s line = s := by
  simp [ParseVariables.step, h]

theorem QV_step_blank {s : ParseVariables.St} {line : List Char}
    (h : isBlank line = true) : QualitativeVariables.step s line = s := by
  simp [QualitativeVariables.step, h]

theorem PV_foldl_filter : ∀ (lines : List (List Char)) (s : ParseVariables.St),
    (lines.filter (fun l => !(isBlank l))).foldl ParseVariables.step s =
      lines.foldl ParseVariables.step s := by
  intro lines
  induction lines with
  | nil => intro s; rfl
  | cons l rest ih =>
    intro s
    by_cases hb : isBlank l = true
    · simp [List.filter_cons, hb, PV_step_blank hb, ih]
    · simp only [Bool.not_eq_true] at hb
      simp [List.filter_cons, hb, ih]

theorem QV_foldl_filter : ∀ (lines : List (List Char)) (s : ParseVariables.St),
    (lines.filter (fun l => !(isBlank l))).foldl QualitativeVariables.step s =
      lines.foldl QualitativeVariables.step s := by
  intro lines
  induction lines with
  | nil => intro s; rfl
  | cons l rest ih =>
    intro s
    by_cases hb : isBlank l = true
    · simp [List.filter_cons, hb, QV_step_blank hb, ih]
    · simp only [Bool.not_eq_true] at hb
      simp [List.filter_cons, hb, ih]

theorem PV_step_end {s : ParseVariables.St} (h : s.in_definition = true) :
    ParseVariables.step s (("End.\n").toList) =
      { s with defs := s.defs ++ [⟨s.name, s.kind, some s.values⟩],
               in_definition := false, values := [] } := by
  have hb : isBlank ['E', 'n', 'd', '.', '\n'] = false := by decide
  have hv : matchValue ['E', 'n', 'd', '.', '\n'] = none := by decide
  have h1 : ParseVariables.P_QUALITATIVE ['E', 'n', 'd', '.', '\n'] = none := by decide
  have h2 : ParseVariables.P_QUANTITATIVE ['E', 'n', 'd', '.', '\n'] = none := by decide
  simp [ParseVariables.step, ParseVariables.stepHeaders, hb, hv, h, h1, h2]

theorem QV_step_end {s : ParseVariables.St} (h : s.in_definition = true) :
    QualitativeVariables.step s (("End.\n").toList) =
      { s with defs := s.defs ++ [⟨s.name, s.kind, some s.values⟩],
               in_definition := false, values := [] } := by
  have hb : isBlank ['E', 'n', 'd', '.', '\n'] = false := by decide
  have hv : matchValue ['E', 'n', 'd', '.', '\n'] = none := by decide
  have h1 : QualitativeVariables.P_QUANTITATIVE ['E', 'n', 'd', '.', '\n'] = none := by decide
  simp [QualitativeVariables.step, hb, hv, h, h1]

def nominalK : List Char := ("Nominal").toList

def ordinalK : List Char := ("Ordinal").toList

def discreteK : List Char := ("Discrete").toList

def continuousK : List Char := ("Continuous").toList

theorem isPrefixOf_head {a : Char} {as l : List Char}
    (h : (a :: as).isPrefixOf l = true) : l.head? = some a := by
  cases l with
  | nil => simp at h
  | cons b bs =>
    rw [List.isPrefixOf_cons₂] at h
    simp only [Bool.and_eq_true, beq_iff_eq] at h
    simp [h.1]

theorem isPrefixOf_head_eq (a b : Char) {k1 k2 rest : List Char}
    (h1 : k1.isPrefixOf rest = true) (h2 : k2.isPrefixOf rest = true)
    (e1 : k1.head? = some a) (e2 : k2.head? = some b) : a = b := by
  cases k1 with
  | nil => simp at e1
  | cons x xs =>
    cases k2 with
    | nil => simp at e2
    | cons y ys =>
      have hx : rest.head? = some x := isPrefixOf_head h1
      have hy : rest.head? = some y := isPrefixOf_head h2
      rw [hx] at hy
      simp only [List.head?_cons, Option.some.injEq] at e1 e2 hy
      rw [← e1, ← e2, hy]

theorem matchHeader_some_facts {kws : List (List Char)} {b : Bool} {line n k : List Char}
    (h : matchHeader kws b line = some (n, k)) :
    k ∈ kws ∧ n = line.takeWhile (fun c => !(c = '(')) ∧
      k.isPrefixOf (line.drop (n.length + 1)) = true := by
  simp only [matchHeader] at h
  split at h
  · exact absurd h (by simp)
  · split at h
    · exact absurd h (by simp)
    · rename_i kw hfind
      split at h
      · split at h
        · simp only [Option.some.injEq, Prod.mk.injEq] at h
          obtain ⟨hn, hk⟩ := h
          subst hn
          subst hk
          refine ⟨List.mem_of_find?_eq_some hfind, rfl, ?_⟩
          have := List.find?_some hfind
          simpa using this
        · exact absurd h (by simp)
      · exact absurd h (by simp)

theorem PV_disjoint {line : List Char} {p : List Char × List Char}
    (h : ParseVariables.P_QUALITATIVE line = some p) :
    ParseVariables.P_QUANTITATIVE line = none := by
  cases hq : ParseVariables.P_QUANTITATIVE line with
  | none => rfl
  | some q =>
    exfalso
    obtain ⟨n1, k1⟩ := p
    obtain ⟨n2, k2⟩ := q
    obtain ⟨hk1, hn1, hp1⟩ := matchHeader_some_facts h
    obtain ⟨hk2, hn2, hp2⟩ := matchHeader_some_facts hq
    rw [hn1] at hp1
    rw [hn2] at hp2
    simp only [List.mem_cons, List.not_mem_nil, or_false] at hk1 hk2
    rcases hk1 with rfl | rfl <;> rcases hk2 with rfl | rfl
    · exact absurd (isPrefixOf_head_eq 'N' 'D' hp1 hp2 (by decide) (by decide)) (by decide)
    · exact absurd (isPrefixOf_head_eq 'N' 'C' hp1 hp2 (by decide) (by decide)) (by decide)
    · exact absurd (isPrefixOf_head_eq 'O' 'D' hp1 hp2 (by decide) (by decide)) (by decide)
    · exact absurd (isPrefixOf_head_eq 'O' 'C' hp1 hp2 (by decide) (by decide)) (by decide)

/-- The record invariant of C6: the kind is one of the four keywords, and
the values key is present exactly for the qualitative kinds. -/
def goodDef (d : Definition) : Prop :=
  (d.kind = nominalK ∨ d.kind = ordinalK ∨ d.kind = discreteK ∨ d.kind = continuousK)
  ∧ ((d.kind = nominalK ∨ d.kind = ordinalK) ↔ d.values.isSome = true)

/-- The loop invariant establishing C6: all emitted records are good, and
an open definition always carries a qualitative kind. -/
def stInv (s : ParseVariables.St) : Prop :=
  (∀ d ∈ s.defs, goodDef d)
  ∧ (s.in_definition = true → (s.kind = nominalK ∨ s.kind = ordinalK))

theorem PV_stepHeaders_inv {s : ParseVariables.St} {line : List Char}
    (hs : stInv s) (hcl : s.in_definition = false) :
    stInv (ParseVariables.stepHeaders s line) := by
  unfold ParseVariables.stepHeaders
  cases hq : ParseVariables.P_QUALITATIVE line with
  | some p =>
    obtain ⟨n, k⟩ := p
    have hnone : ParseVariables.P_QUANTITATIVE line = none := PV_disjoint hq
    simp only [hnone]
    constructor
    · intro d hd
      exact hs.1 d (by simpa using hd)
    · intro _
      have hk : k ∈ [("Nominal").toList, ("Ordinal").toList] := (matchHeader_some_facts hq).1
      simp only [List.mem_cons, List.not_mem_nil, or_false] at hk
      rcases hk with rfl | rfl
      · exact Or.inl (by decide : pyStrip (("Nominal").toList) = nominalK)
      · exact Or.inr (by decide : pyStrip (("Ordinal").toList) = ordinalK)
  | none =>
    cases hq2 : ParseVariables.P_QUANTITATIVE line with
    | none => simpa using hs
    | some p =>
      obtain ⟨n, k⟩ := p
      simp only []
      constructor
      · intro d hd
        simp only [List.mem_append, List.mem_singleton] at hd
        rcases hd with hd | rfl
        · exact hs.1 d hd
        · have hk : k ∈ [("Discrete").toList, ("Continuous").toList] :=
            (matchHeader_some_facts hq2).1
          simp only [List.mem_cons, List.not_mem_nil, or_false] at hk
          rcases hk with rfl | rfl
          · exact ⟨Or.inr (Or.inr (Or.inl
                (by decide : pyStrip (("Discrete").toList) = discreteK))),
              (by decide :
                (pyStrip (("Discrete").toList) = nominalK
                  ∨ pyStrip (("Discrete").toList) = ordinalK)
                ↔ (none : Option (List (List Char))).isSome = true)⟩
          · exact ⟨Or.inr (Or.inr (Or.inr
                (by decide : pyStrip (("Continuous").toList) = continuousK))),
              (by decide :
                (pyStrip (("Continuous").toList) = nominalK
                  ∨ pyStrip (("Continuous").toList) = ordinalK)
                ↔ (none : Option (List (List Char))).isSome = true)⟩
      · intro hopen
        exact absurd hopen (by simp [hcl])

theorem PV_step_inv {s : ParseVariables.St} {line : List Char} (hs : stInv s) :
    stInv (ParseVariables.step s line) := by
  unfold ParseVariables.step
  by_cases hb : isBlank line = true
  · simpa [hb] using hs
  · simp only [hb, if_false, Bool.false_eq_true]
    cases hd : s.in_definition with
    | false =>
      simp only [hd, Bool.false_eq_true, if_false]
      exact PV_stepHeaders_inv hs hd
    | true =>
      cases hv : matchValue line with
      | some v =>
        simp only [hd, if_true, hv]
        exact ⟨fun d hdm => hs.1 d (by simpa using hdm), fun _ => hs.2 hd⟩
      | none =>
        simp only [hd, if_true, hv, Bool.false_eq_true, if_false]
        apply PV_stepHeaders_inv
        · constructor
          · intro d hdm
            simp only [List.mem_append, List.mem_singleton] at hdm
            rcases hdm with hdm | rfl
            · exact hs.1 d hdm
            · rcases hs.2 hd with hk | hk
              · exact ⟨Or.inl hk, by simp [hk]⟩
              · exact ⟨Or.inr (Or.inl hk), by simp [hk]⟩
          · intro hfalse
            simp at hfalse
        · rfl

/-- The values-buffer invariant of C10: whenever no definition is open,
the accumulated values buffer is empty, so a newly opened definition
always starts from an empty buffer. -/
def valsInv (s : ParseVariables.St) : Prop :=
  s.in_definition = false → s.values = []

theorem PV_stepHeaders_valsInv {s : ParseVariables.St} {line : List Char}
    (hs : valsInv s) : valsInv (ParseVariables.stepHeaders s line) := by
  unfold ParseVariables.stepHeaders
  cases hq : ParseVariables.P_QUALITATIVE line with
  | some p =>
    obtain ⟨n, k⟩ := p
    cases hq2 : ParseVariables.P_QUANTITATIVE line with
    | some p2 =>
      obtain ⟨n2, k2⟩ := p2
      intro hfalse
      simp at hfalse
    | none =>
      intro hfalse
      simp at hfalse
  | none =>
    cases hq2 : ParseVariables.P_QUANTITATIVE line with
    | some p2 =>
      obtain ⟨n2, k2⟩ := p2
      intro hfalse
      exact hs (by simpa using hfalse)
    | none => simpa using hs

theorem PV_step_valsInv {s : ParseVariables.St} {line : List Char}
    (hs : valsInv s) : valsInv (ParseVariables.step s line) := by
  unfold ParseVariables.step
  by_cases hb : isBlank line = true
  · simpa [hb] using hs
  · simp only [hb, if_false, Bool.false_eq_true]
    cases hd : s.in_definition with
    | false =>
      simp only [hd, Bool.false_eq_true, if_false]
      exact PV_stepHeaders_valsInv hs
    | true =>
      cases hv : matchValue line with
      | some v =>
        simp only [hd, if_true, hv]
        intro hfalse
        simp [hd] at hfalse
      | none =>
        simp only [hd, if_true, hv, Bool.false_eq_true, if_false]
        exact PV_stepHeaders_valsInv (fun _ => rfl)

theorem QV_step_valsInv {s : ParseVariables.St} {line : List Char}
    (hs : valsInv s) : valsInv (QualitativeVariables.step s line) := by
  unfold QualitativeVariables.step
  by_cases hb : isBlank line = true
  · simpa [hb] using hs
  · simp only [hb, if_false, Bool.false_eq_true]
    cases hd : s.in_definition with
    | false =>
      simp only [hd, Bool.false_eq_true, if_false]
      cases hq : QualitativeVariables.P_QUANTITATIVE line with
      | some p =>
        obtain ⟨n, k⟩ := p
        intro hfalse
        simp at hfalse
      | none => simpa using hs
    | true =>
      cases hv : matchValue line with
      | some v =>
        simp only [hd, if_true, hv]
        intro hfalse
        simp [hd] at hfalse
      | none =>
        simp only [hd, if_true, hv, Bool.false_eq_true, if_false]
        cases hq : QualitativeVariables.P_QUANTITATIVE line with
        | some p =>
          obtain ⟨n, k⟩ := p
          intro hfalse
          simp at hfalse
        | none => exact fun _ => rfl

theorem PV_stepHeaders_defs_mono {s : ParseVariables.St} {line : List Char} {d : Definition}
    (h : d ∈ s.defs) : d ∈ (ParseVariables.stepHeaders s line).defs := by
  unfold ParseVariables.stepHeaders
  cases hq : ParseVariables.P_QUALITATIVE line with
  | none =>
    cases hq2 : ParseVariables.P_QUANTITATIVE line with
    | none => simpa using h
    | some p =>
      obtain ⟨n, k⟩ := p
      simp only [List.mem_append]
      exact Or.inl h
  | some p =>
    obtain ⟨n, k⟩ := p
    cases hq2 : ParseVariables.P_QUANTITATIVE line with
    | none => simpa using h
    | some p2 =>
      obtain ⟨n2, k2⟩ := p2
      simp only [List.mem_append]
      exact Or.inl h

/-! Claim theorems. -/

/-- C1, counterexample: on the exact scenario-1 input the parser returns
the empty list, not the single Foo definition the claim announces,
because the file ends while the Foo definition is still open and the
pending definition is dropped at end of input. -/
theorem c1_counterexample :
    ¬ (ParseVariables.parse_file
         (("Foo (Nominal):\n       A\tdesc\n       B\tdesc\n").toList) =
       [⟨("Foo").toList, ("Nominal").toList, some [("A").toList, ("B").toList]⟩]) := by
  decide

/-- C1, amended: parsing the scenario-1 contents returns no definition at
all, since the qualitative definition is still open at end of input and
is silently dropped; with a terminating non-value line appended, the
parse returns exactly one definition with name Foo, kind Nominal and
values A then B. -/
theorem c1_amended_eof_drop :
    ParseVariables.parse_file
        (("Foo (Nominal):\n       A\tdesc\n       B\tdesc\n").toList) = []
    ∧ ParseVariables.parse_file
        (("Foo (Nominal):\n       A\tdesc\n       B\tdesc\nEnd.\n").toList) =
      [⟨("Foo").toList, ("Nominal").toList, some [("A").toList, ("B").toList]⟩] := by
  exact ⟨by decide, by decide⟩

/-- C2: in both parser modules, when the input ends while a qualitative
definition is still open (final loop state has in_definition set), that
pending definition is omitted: appending a terminating line would have
produced exactly the parsed output plus that one pending definition, so
the definitions emitted before it are returned unchanged and only the
pending one is dropped. -/
theorem c2_pending_dropped :
    (∀ lines : List (List Char),
       (ParseVariables.finalState lines).in_definition = true →
       ParseVariables.parse_definitions (lines ++ [("End.\n").toList]) =
         ParseVariables.parse_definitions lines ++
           [⟨(ParseVariables.finalState lines).name, (ParseVariables.finalState lines).kind,
             some (ParseVariables.finalState lines).values⟩])
    ∧ (∀ lines : List (List Char),
       (QualitativeVariables.finalState lines).in_definition = true →
       QualitativeVariables.parse_definitions (lines ++ [("End.\n").toList]) =
         QualitativeVariables.parse_definitions lines ++
           [⟨(QualitativeVariables.finalState lines).name,
             (QualitativeVariables.finalState lines).kind,
             some (QualitativeVariables.finalState lines).values⟩]) := by
  constructor
  · intro lines h
    unfold ParseVariables.parse_definitions ParseVariables.finalState at *
    rw [List.foldl_append]
    simp only [List.foldl_cons, List.foldl_nil]
    rw [PV_step_end h]
  · intro lines h
    unfold QualitativeVariables.parse_definitions QualitativeVariables.finalState at *
    rw [List.foldl_append]
    simp only [List.foldl_cons, List.foldl_nil]
    rw [QV_step_end h]

theorem c2_pending_dropped_witness :
    ParseVariables.parse_definitions
        ([("Foo (Nominal):\n").toList] ++ [("End.\n").toList]) =
      ParseVariables.parse_definitions [("Foo (Nominal):\n").toList] ++
        [⟨(ParseVariables.finalState [("Foo (Nominal):\n").toList]).name,
          (ParseVariables.finalState [("Foo (Nominal):\n").toList]).kind,
          some (ParseVariables.finalState [("Foo (Nominal):\n").toList]).values⟩]
    ∧ QualitativeVariables.parse_definitions
        ([("Foo (Nominal):\n").toList] ++ [("End.\n").toList]) =
      QualitativeVariables.parse_definitions [("Foo (Nominal):\n").toList] ++
        [⟨(QualitativeVariables.finalState [("Foo (Nominal):\n").toList]).name,
          (QualitativeVariables.finalState [("Foo (Nominal):\n").toList]).kind,
          some (QualitativeVariables.finalState [("Foo (Nominal):\n").toList]).values⟩] :=
  ⟨c2_pending_dropped.1 [("Foo (Nominal):\n").toList] (by decide),
   c2_pending_dropped.2 [("Foo (Nominal):\n").toList] (by decide)⟩

/-- C3: while a definition is open, a non-blank line failing the value
pattern both closes the open definition (emitting it with its accumulated
values) and is re-examined against the header patterns in the same
iteration; concretely, scenario 3 yields Foo with value A followed
immediately by Bar with kind Discrete. -/
theorem c3_terminator_restarts :
    (∀ (s : ParseVariables.St) (line : List Char),
       s.in_definition = true → isBlank line = false → matchValue line = none →
       ParseVariables.step s line =
         ParseVariables.stepHeaders
           { s with defs := s.defs ++ [⟨s.name, s.kind, some s.values⟩],
                    in_definition := false, values := [] } line)
    ∧ ParseVariables.parse_file
        (("Foo (Nominal):\n       A\tx\nBar (Discrete): y\n").toList) =
      [⟨("Foo").toList, ("Nominal").toList, some [("A").toList]⟩,
       ⟨("Bar").toList, ("Discrete").toList, none⟩] := by
  constructor
  · intro s line h1 h2 h3
    simp [ParseVariables.step, h1, h2, h3]
  · decide

theorem c3_terminator_restarts_witness :
    ParseVariables.step
        ⟨true, ("Foo").toList, ("Nominal").toList, [], []⟩
        (("Bar (Discrete): y\n").toList) =
      ParseVariables.stepHeaders
        ⟨false, ("Foo").toList, ("Nominal").toList, [],
         [] ++ [⟨("Foo").toList, ("Nominal").toList, some []⟩]⟩
        (("Bar (Discrete): y\n").toList) :=
  c3_terminator_restarts.1 ⟨true, ("Foo").toList, ("Nominal").toList, [], []⟩
    (("Bar (Discrete): y\n").toList) rfl (by decide) (by decide)

/-- C7: blank lines are invisible to both parsers: any two line sequences
with the same non-blank lines parse to the same output, so removing or
inserting blank lines anywhere (including between value lines of an open
definition) leaves the result unchanged. -/
theorem c7_blank_lines_invariant :
    ∀ l1 l2 : List (List Char),
      l1.filter (fun l => !(isBlank l)) = l2.filter (fun l => !(isBlank l)) →
      ParseVariables.parse_definitions l1 = ParseVariables.parse_definitions l2
      ∧ QualitativeVariables.parse_definitions l1 = QualitativeVariables.parse_definitions l2 := by
  intro l1 l2 h
  constructor
  · unfold ParseVariables.parse_definitions ParseVariables.finalState
    rw [← PV_foldl_filter l1, ← PV_foldl_filter l2, h]
  · unfold QualitativeVariables.parse_definitions QualitativeVariables.finalState
    rw [← QV_foldl_filter l1, ← QV_foldl_filter l2, h]

theorem c7_blank_lines_invariant_witness :
    ParseVariables.parse_definitions
        [("Foo (Nominal):\n").toList, ("\n").toList, ("       A\tx\n").toList, ("End.\n").toList] =
      ParseVariables.parse_definitions
        [("Foo (Nominal):\n").toList, ("       A\tx\n").toList, ("End.\n").toList]
    ∧ QualitativeVariables.parse_definitions
        [("Foo (Nominal):\n").toList, ("\n").toList, ("       A\tx\n").toList, ("End.\n").toList] =
      QualitativeVariables.parse_definitions
        [("Foo (Nominal):\n").toList, ("       A\tx\n").toList, ("End.\n").toList] :=
  c7_blank_lines_invariant
    [("Foo (Nominal):\n").toList, ("\n").toList, ("       A\tx\n").toList, ("End.\n").toList]
    [("Foo (Nominal):\n").toList, ("       A\tx\n").toList, ("End.\n").toList]
    (by decide)

/-- C8: the parser is a pure function of the sequence of input lines: it
is the fold of the step function from the one fixed initial state, so
two runs on equal inputs give identical outputs and nothing carries over
between invocations. -/
theorem c8_deterministic :
    ∀ l1 l2 : List (List Char), l1 = l2 →
      ParseVariables.parse_definitions l1 = ParseVariables.parse_definitions l2
      ∧ ParseVariables.parse_definitions l1 =
          (l1.foldl ParseVariables.step ParseVariables.initSt).defs := by
  intro l1 l2 h
  subst h
  exact ⟨rfl, rfl⟩

theorem c8_deterministic_witness :
    ParseVariables.parse_definitions [("Bar (Discrete): y\n").toList] =
      ParseVariables.parse_definitions [("Bar (Discrete): y\n").toList]
    ∧ ParseVariables.parse_definitions [("Bar (Discrete): y\n").toList] =
        ([("Bar (Discrete): y\n").toList].foldl ParseVariables.step ParseVariables.initSt).defs :=
  c8_deterministic [("Bar (Discrete): y\n").toList] [("Bar (Discrete): y\n").toList] rfl

/-- C6: every record the parser emits has one of the four kinds, and it
carries a values list exactly when its kind is Nominal or Ordinal;
records of kind Discrete or Continuous have no values key. -/
theorem c6_kind_values_invariant :
    ∀ (lines : List (List Char)) (d : Definition),
      d ∈ ParseVariables.parse_definitions lines →
      (d.kind = nominalK ∨ d.kind = ordinalK ∨ d.kind = discreteK ∨ d.kind = continuousK)
      ∧ ((d.kind = nominalK ∨ d.kind = ordinalK) ↔ d.values.isSome = true) := by
  intro lines d hd
  have hinv : stInv (ParseVariables.finalState lines) :=
    foldl_invariant stInv ParseVariables.step (fun s l hs => PV_step_inv hs) lines
      ParseVariables.initSt
      ⟨by intro d hd; simp [ParseVariables.initSt] at hd, by simp [ParseVariables.initSt]⟩
  exact hinv.1 d hd

theorem c6_kind_values_invariant_witness :
    ((⟨("Bar").toList, ("Discrete").toList, none⟩ : Definition).kind = nominalK
       ∨ (⟨("Bar").toList, ("Discrete").toList, none⟩ : Definition).kind = ordinalK
       ∨ (⟨("Bar").toList, ("Discrete").toList, none⟩ : Definition).kind = discreteK
       ∨ (⟨("Bar").toList, ("Discrete").toList, none⟩ : Definition).kind = continuousK)
    ∧ (((⟨("Bar").toList, ("Discrete").toList, none⟩ : Definition).kind = nominalK
         ∨ (⟨("Bar").toList, ("Discrete").toList, none⟩ : Definition).kind = ordinalK)
       ↔ (⟨("Bar").toList, ("Discrete").toList, none⟩ : Definition).values.isSome = true) :=
  c6_kind_values_invariant [("Bar (Discrete): y\n").toList]
    ⟨("Bar").toList, ("Discrete").toList, none⟩ (by decide)

/-- C10: in both parser modules, whenever no definition is open the
values buffer is empty (so a definition opened by a header accumulates
from empty and values never carry over); a non-blank non-value line
emits the open definition with exactly the accumulated values; and a
qualitative header followed by a blank line and then a terminating
header yields that definition with an empty values list. -/
theorem c10_own_values :
    (∀ lines : List (List Char),
       (ParseVariables.finalState lines).in_definition = false →
       (ParseVariables.finalState lines).values = [])
    ∧ (∀ (s : ParseVariables.St) (line : List Char),
       s.in_definition = true → isBlank line = false → matchValue line = none →
       (⟨s.name, s.kind, some s.values⟩ : Definition) ∈ (ParseVariables.step s line).defs)
    ∧ (∀ lines : List (List Char),
       (QualitativeVariables.finalState lines).in_definition = false →
       (QualitativeVariables.finalState lines).values = [])
    ∧ ParseVariables.parse_file (("Foo (Nominal):\n\nBar (Discrete): y\n").toList) =
        [⟨("Foo").toList, ("Nominal").toList, some []⟩,
         ⟨("Bar").toList, ("Discrete").toList, none⟩] := by
  refine ⟨?_, ?_, ?_, by decide⟩
  · intro lines
    exact foldl_invariant valsInv ParseVariables.step (fun s l hs => PV_step_valsInv hs)
      lines ParseVariables.initSt (fun _ => rfl)
  · intro s line h1 h2 h3
    have hstep : ParseVariables.step s line =
        ParseVariables.stepHeaders
          { s with defs := s.defs ++ [⟨s.name, s.kind, some s.values⟩],
                   in_definition := false, values := [] } line := by
      simp [ParseVariables.step, h1, h2, h3]
    rw [hstep]
    apply PV_stepHeaders_defs_mono
    simp
  · intro lines
    exact foldl_invariant valsInv QualitativeVariables.step (fun s l hs => QV_step_valsInv hs)
      lines ParseVariables.initSt (fun _ => rfl)

theorem odInsert_not_mem {m : List (List Char × Utils.Attrs)} {k : List Char} {v : Utils.Attrs}
    (h : k ∉ m.map Prod.fst) : Utils.odInsert m k v = m ++ [(k, v)] := by
  unfold Utils.odInsert
  rw [if_neg]
  simp only [List.contains, List.elem_eq_mem, decide_eq_true_eq]
  exact h

theorem load_variables_aux :
    ∀ (defs : List Definition) (m : List (List Char × Utils.Attrs)),
      (∀ d ∈ defs, d.name ∉ m.map Prod.fst) →
      (defs.map Definition.name).Nodup →
      defs.foldl (fun m d => Utils.odInsert m (Utils.make_pair d).1 (Utils.make_pair d).2) m =
        m ++ defs.map Utils.make_pair := by
  intro defs
  induction defs with
  | nil => intro m _ _; simp
  | cons d ds ih =>
    intro m hm hnd
    simp only [List.map_cons, List.nodup_cons] at hnd
    have hnot : (Utils.make_pair d).1 ∉ m.map Prod.fst := hm d (by simp)
    have h1 : Utils.odInsert m (Utils.make_pair d).1 (Utils.make_pair d).2 =
        m ++ [Utils.make_pair d] := by
      rw [odInsert_not_mem hnot]
    simp only [List.foldl_cons, List.map_cons]
    rw [h1, ih]
    · simp
    · intro e he
      simp only [List.map_append, List.mem_append, Utils.make_pair, List.map_cons,
        List.map_nil, List.mem_singleton]
      rintro (hc | hc)
      · exact hm e (by simp [he]) hc
      · exact hnd.1 (hc ▸ List.mem_map_of_mem Definition.name he)
    · exact hnd.2

theorem matchValue_some_decomp {line v : List Char} (h : matchValue line = some v) :
    ∃ rest, line = List.replicate 7 ' ' ++ v ++ '\t' :: rest ∧ v ≠ [] ∧ '\t' ∉ v := by
  simp only [matchValue] at h
  split at h
  · rename_i htake
    split at h
    · rename_i hlen
      simp only [Option.some.injEq] at h
      subst h
      cases hd : (line.drop 7).dropWhile (fun c => !(c = '\t')) with
      | nil =>
        exfalso
        have hl : (line.drop 7).takeWhile (fun c => !(c = '\t')) ++
            (line.drop 7).dropWhile (fun c => !(c = '\t')) = line.drop 7 :=
          List.takeWhile_append_dropWhile (fun c => !(c = '\t')) (line.drop 7)
        rw [hd, List.append_nil] at hl
        have hlen2 := hlen.2
        rw [hl] at hlen2
        exact lt_irrefl _ hlen2
      | cons c tail =>
        have hc : (fun c => !(c = '\t')) c = false := by
          have h0 := List.head?_dropWhile_not (fun c => !(c = '\t')) (line.drop 7)
          rw [hd] at h0
          simpa using h0
        have hct : c = '\t' := by simpa using hc
        subst hct
        refine ⟨tail, ?_, ?_, ?_⟩
        · have hsplit : line.drop 7 =
              (line.drop 7).takeWhile (fun c => !(c = '\t')) ++ '\t' :: tail := by
            conv_lhs =>
              rw [← List.takeWhile_append_dropWhile (fun c => !(c = '\t')) (line.drop 7)]
            rw [hd]
          conv_lhs => rw [← List.take_append_drop 7 line, htake, hsplit]
          rw [← List.append_assoc]
        · intro hnil
          rw [hnil] at hlen
          exact absurd hlen.1 (by simp)
        · intro hm
          have := List.mem_takeWhile_imp hm
          simp at this
    · exact absurd h (by simp)
  · exact absurd h (by simp)

theorem matchValue_of_decomp (v rest : List Char) (hv : v ≠ []) (htab : '\t' ∉ v) :
    matchValue (List.replicate 7 ' ' ++ v ++ '\t' :: rest) = some v := by
  rw [List.append_assoc]
  have h7 : (List.replicate 7 ' ' ++ (v ++ '\t' :: rest)).take 7 = List.replicate 7 ' ' :=
    List.take_left' (by simp)
  have hdrop : (List.replicate 7 ' ' ++ (v ++ '\t' :: rest)).drop 7 = v ++ '\t' :: rest :=
    List.drop_left' (by simp)
  have hall : ∀ c ∈ v, (fun c => !(c = '\t')) c = true := by
    intro c hc
    have hne : ¬ (c = '\t') := fun he => htab (he ▸ hc)
    simp [hne]
  have htw : (v ++ '\t' :: rest).takeWhile (fun c => !(c = '\t')) = v := by
    rw [List.takeWhile_append_of_pos hall, List.takeWhile_cons_of_neg (by simp),
      List.append_nil]
  simp only [matchValue, h7, hdrop, htw, if_true, eq_self_iff_true]
  rw [if_pos]
  constructor
  · exact List.length_pos.mpr hv
  · simp [List.length_append]

/-- Modelled from the claim wording of C4: the line begins with exactly
seven space characters, i.e. its first seven characters are spaces and
the eighth character, if any, is not a space. -/
def specExactlySevenSpaces (line : List Char) : Bool :=
  decide (line.take 7 = List.replicate 7 ' ') && !((line.drop 7).head? = some ' ')

/-- Modelled from the claim wording of C4: the line contains a tab
character after its first seven characters. -/
def specTabAfterSeven (line : List Char) : Bool :=
  (line.drop 7).contains '\t'

/-- C4, counterexample: a line with eight leading spaces, then a value
and a tab, does not begin with exactly seven spaces, yet the parser
treats it as a value line: the regex consumes seven spaces and the
eighth space becomes part of the value, which is then trimmed away, so
the open definition gains the value A instead of being terminated. -/
theorem c4_counterexample :
    ¬ ((matchValue (List.replicate 8 ' ' ++ ("A\tx\n").toList)).isSome = true ↔
       (specExactlySevenSpaces (List.replicate 8 ' ' ++ ("A\tx\n").toList) = true
        ∧ specTabAfterSeven (List.replicate 8 ' ' ++ ("A\tx\n").toList) = true))
    ∧ ParseVariables.step ⟨true, ("Foo").toList, ("Nominal").toList, [], []⟩
        (List.replicate 8 ' ' ++ ("A\tx\n").toList) =
      ⟨true, ("Foo").toList, ("Nominal").toList, [("A").toList], []⟩ := by
  exact ⟨by decide, by decide⟩

/-- C4, amended: while a definition is open, a non-blank line is
appended as a value exactly when its first seven characters are spaces
and a tab occurs after at least one further character; equivalently the
line decomposes as seven spaces, a non-empty tab-free value, a tab, and
a remainder (so extra leading spaces beyond seven become part of the
value). The appended value is that segment between position seven and
the first tab, trimmed. Any other non-blank line terminates the open
definition, which is emitted with its accumulated values. -/
theorem c4_amended_value_semantics :
    (∀ line v : List Char, matchValue line = some v ↔
       ∃ rest, line = List.replicate 7 ' ' ++ v ++ '\t' :: rest ∧ v ≠ [] ∧ '\t' ∉ v)
    ∧ (∀ (s : ParseVariables.St) (line v : List Char),
       s.in_definition = true → isBlank line = false → matchValue line = some v →
       ParseVariables.step s line = { s with values := s.values ++ [pyStrip v] })
    ∧ (∀ (s : ParseVariables.St) (line : List Char),
       s.in_definition = true → isBlank line = false → matchValue line = none →
       (⟨s.name, s.kind, some s.values⟩ : Definition) ∈ (ParseVariables.step s line).defs) := by
  refine ⟨?_, ?_, ?_⟩
  · intro line v
    constructor
    · exact matchValue_some_decomp
    · rintro ⟨rest, hl, hv, ht⟩
      rw [hl]
      exact matchValue_of_decomp v rest hv ht
  · intro s line v h1 h2 h3
    simp [ParseVariables.step, h1, h2, h3]
  · intro s line h1 h2 h3
    have hstep : ParseVariables.step s line =
        ParseVariables.stepHeaders
          { s with defs := s.defs ++ [⟨s.name, s.kind, some s.values⟩],
                   in_definition := false, values := [] } line := by
      simp [ParseVariables.step, h1, h2, h3]
    rw [hstep]
    apply PV_stepHeaders_defs_mono
    simp

theorem c4_amended_value_semantics_witness :
    (∃ rest, List.replicate 7 ' ' ++ ("A\tx\n").toList =
       List.replicate 7 ' ' ++ ("A").toList ++ '\t' :: rest
       ∧ ("A").toList ≠ [] ∧ '\t' ∉ ("A").toList)
    ∧ ParseVariables.step ⟨true, ("Foo").toList, ("Nominal").toList, [], []⟩
        (List.replicate 7 ' ' ++ ("A\tx\n").toList) =
      { (⟨true, ("Foo").toList, ("Nominal").toList, [], []⟩ : ParseVariables.St) with
        values := [] ++ [pyStrip (("A").toList)] }
    ∧ (⟨("Foo").toList, ("Nominal").toList, some []⟩ : Definition) ∈
        (ParseVariables.step ⟨true, ("Foo").toList, ("Nominal").toList, [], []⟩
          (("End.\n").toList)).defs :=
  ⟨(c4_amended_value_semantics.1 (List.replicate 7 ' ' ++ ("A\tx\n").toList)
      (("A").toList)).mp (by decide),
   c4_amended_value_semantics.2.1 ⟨true, ("Foo").toList, ("Nominal").toList, [], []⟩
     (List.replicate 7 ' ' ++ ("A\tx\n").toList) (("A").toList) rfl (by decide) (by decide),
   c4_amended_value_semantics.2.2 ⟨true, ("Foo").toList, ("Nominal").toList, [], []⟩
     (("End.\n").toList) rfl (by decide) (by decide)⟩

theorem isPrefixOf_append_self (l t : List Char) : l.isPrefixOf (l ++ t) = true := by
  induction l with
  | nil => simp
  | cons a as ih => simp [List.isPrefixOf_cons₂, ih]

theorem isPrefixOf_cons_ne {a b : Char} (as bs : List Char) (h : ¬ a = b) :
    (a :: as).isPrefixOf (b :: bs) = false := by
  simp [List.isPrefixOf_cons₂, h]

theorem find?_two_fst (A B X : List Char) :
    [A, B].find? (fun kw2 => kw2.isPrefixOf (A ++ X)) = some A := by
  apply List.find?_cons_of_pos
  exact isPrefixOf_append_self A X

theorem find?_two_snd {A B X : List Char} (hA : A.isPrefixOf (B ++ X) = false) :
    [A, B].find? (fun kw2 => kw2.isPrefixOf (B ++ X)) = some B := by
  rw [List.find?_cons_of_neg _ (by simp [hA])]
  apply List.find?_cons_of_pos
  exact isPrefixOf_append_self B X

/-- A header line built from its parts matches the header pattern and
yields name and kind: the name part is non-empty and free of open
parens, the keyword found by the alternation is the one used to build
the line, and whitespace before the colon is allowed only when the
pattern has it. -/
theorem matchHeader_builds (kws : List (List Char)) (b : Bool) (name kw ws trail : List Char)
    (hname : name ≠ []) (hpar : '(' ∉ name)
    (hfind : kws.find? (fun kw2 => kw2.isPrefixOf (kw ++ ')' :: (ws ++ ':' :: trail))) = some kw)
    (hws : ∀ c ∈ ws, isPySpace c = true) (hwsb : b = true ∨ ws = []) :
    matchHeader kws b (name ++ '(' :: (kw ++ ')' :: (ws ++ ':' :: trail))) = some (name, kw) := by
  have hnall : ∀ c ∈ name, (fun c => !(c = '(')) c = true := by
    intro c hc
    have hne : ¬ (c = '(') := fun he => hpar (he ▸ hc)
    simp [hne]
  have htake : (name ++ '(' :: (kw ++ ')' :: (ws ++ ':' :: trail))).takeWhile
      (fun c => !(c = '(')) = name := by
    rw [List.takeWhile_append_of_pos hnall, List.takeWhile_cons_of_neg (by simp),
      List.append_nil]
  have hlen0 : ¬ (name.length = 0) := by simpa using hname
  have hlenline : ¬ (name.length =
      (name ++ '(' :: (kw ++ ')' :: (ws ++ ':' :: trail))).length) := by
    simp only [List.length_append, List.length_cons]
    omega
  have hdrop : (name ++ '(' :: (kw ++ ')' :: (ws ++ ':' :: trail))).drop (name.length + 1) =
      kw ++ ')' :: (ws ++ ':' :: trail) := by
    have hre : name ++ '(' :: (kw ++ ')' :: (ws ++ ':' :: trail)) =
        (name ++ ['(']) ++ (kw ++ ')' :: (ws ++ ':' :: trail)) := by
      simp
    rw [hre, List.drop_left' (by simp)]
  have hrest2 : (kw ++ ')' :: (ws ++ ':' :: trail)).drop kw.length =
      ')' :: (ws ++ ':' :: trail) := List.drop_left' rfl
  have hall : ∀ c ∈ ws, (b && isPySpace c) = true := by
    intro c hc
    rcases hwsb with hb | hws0
    · simp [hb, hws c hc]
    · subst hws0; simp at hc
  have hcol : isPySpace ':' = false := by decide
  have hafter : (ws ++ ':' :: trail).dropWhile (fun c => b && isPySpace c) = ':' :: trail := by
    rw [List.dropWhile_append_of_pos hall, List.dropWhile_cons_of_neg (by simp [hcol])]
  simp only [matchHeader, htake, hdrop, hfind, hrest2, List.head?_cons, List.tail_cons, hafter]
  rw [if_neg (by push_neg; exact ⟨hlen0, hlenline⟩)]
  simp

/-- C5, counterexample: a header line with a space between the closing
paren and the colon is recognized by parse_variables.py but rejected by
qualitative_variables.py, whose pattern requires the colon immediately
after the paren, so the claim fails for that module. -/
theorem c5_counterexample :
    ("Foo (Nominal) :x\n").toList =
      ("Foo ").toList ++ '(' :: (("Nominal").toList ++ ')' :: ([' '] ++ ':' :: ("x\n").toList))
    ∧ ParseVariables.P_QUALITATIVE (("Foo (Nominal) :x\n").toList) =
        some (("Foo ").toList, ("Nominal").toList)
    ∧ QualitativeVariables.P_QUANTITATIVE (("Foo (Nominal) :x\n").toList) = none := by
  exact ⟨by decide, by decide, by decide⟩

/-- C5, amended: a header line made of a non-empty paren-free name, an
open paren, a kind keyword, a close paren, optional whitespace and a
colon is recognized with that name and that keyword by the two patterns
of parse_variables.py, whose regexes allow whitespace before the colon;
the pattern of qualitative_variables.py recognizes such a line only when
the colon follows the paren immediately. In every module a successful
match returns the text before the first open paren as the name and the
keyword as the kind. -/
theorem c5_amended_header_semantics :
    (∀ name kw ws trail : List Char, name ≠ [] → '(' ∉ name →
       (kw = ("Nominal").toList ∨ kw = ("Ordinal").toList) →
       (∀ c ∈ ws, isPySpace c = true) →
       ParseVariables.P_QUALITATIVE (name ++ '(' :: (kw ++ ')' :: (ws ++ ':' :: trail))) =
         some (name, kw))
    ∧ (∀ name kw ws trail : List Char, name ≠ [] → '(' ∉ name →
       (kw = ("Discrete").toList ∨ kw = ("Continuous").toList) →
       (∀ c ∈ ws, isPySpace c = true) →
       ParseVariables.P_QUANTITATIVE (name ++ '(' :: (kw ++ ')' :: (ws ++ ':' :: trail))) =
         some (name, kw))
    ∧ (∀ name kw trail : List Char, name ≠ [] → '(' ∉ name →
       (kw = ("Nominal").toList ∨ kw = ("Ordinal").toList) →
       QualitativeVariables.P_QUANTITATIVE (name ++ '(' :: (kw ++ ')' :: ':' :: trail)) =
         some (name, kw))
    ∧ (∀ (kws : List (List Char)) (b : Bool) (line n k : List Char),
       matchHeader kws b line = some (n, k) →
       n = line.takeWhile (fun c => !(c = '(')) ∧ k ∈ kws) := by
  refine ⟨?_, ?_, ?_, ?_⟩
  · intro name kw ws trail hname hpar hkw hws
    rcases hkw with rfl | rfl
    · exact matchHeader_builds _ true name _ ws trail hname hpar
        (find?_two_fst (("Nominal").toList) (("Ordinal").toList) _) hws (Or.inl rfl)
    · refine matchHeader_builds _ true name _ ws trail hname hpar
        (find?_two_snd ?_) hws (Or.inl rfl)
      exact isPrefixOf_cons_ne _ _ (by decide)
  · intro name kw ws trail hname hpar hkw hws
    rcases hkw with rfl | rfl
    · exact matchHeader_builds _ true name _ ws trail hname hpar
        (find?_two_fst (("Discrete").toList) (("Continuous").toList) _) hws (Or.inl rfl)
    · refine matchHeader_builds _ true name _ ws trail hname hpar
        (find?_two_snd ?_) hws (Or.inl rfl)
      exact isPrefixOf_cons_ne _ _ (by decide)
  · intro name kw trail hname hpar hkw
    rcases hkw with rfl | rfl
    · exact matchHeader_builds _ false name _ [] trail hname hpar
        (find?_two_fst (("Nominal").toList) (("Ordinal").toList) _) (by simp) (Or.inr rfl)
    · refine matchHeader_builds _ false name _ [] trail hname hpar
        (find?_two_snd ?_) (by simp) (Or.inr rfl)
      exact isPrefixOf_cons_ne _ _ (by decide)
  · intro kws b line n k h
    obtain ⟨h1, h2, _⟩ := matchHeader_some_facts h
    exact ⟨h2, h1⟩

theorem c5_amended_header_semantics_witness :
    ParseVariables.P_QUALITATIVE
        (("Foo ").toList ++ '(' :: (("Nominal").toList ++ ')' :: ([' '] ++ ':' :: ("x\n").toList))) =
      some (("Foo ").toList, ("Nominal").toList)
    ∧ ParseVariables.P_QUANTITATIVE
        (("Bar ").toList ++ '(' :: (("Discrete").toList ++ ')' :: ([] ++ ':' :: (" y\n").toList))) =
      some (("Bar ").toList, ("Discrete").toList)
    ∧ QualitativeVariables.P_QUANTITATIVE
        (("Foo ").toList ++ '(' :: (("Ordinal").toList ++ ')' :: ':' :: ("x\n").toList)) =
      some (("Foo ").toList, ("Ordinal").toList)
    ∧ (("Foo ").toList = (("Foo (Nominal):\n").toList).takeWhile (fun c => !(c = '('))
       ∧ ("Nominal").toList ∈ [("Nominal").toList, ("Ordinal").toList]) :=
  ⟨c5_amended_header_semantics.1 (("Foo ").toList) (("Nominal").toList) [' '] (("x\n").toList)
     (by decide) (by decide) (Or.inl rfl) (by decide),
   c5_amended_header_semantics.2.1 (("Bar ").toList) (("Discrete").toList) [] ((" y\n").toList)
     (by decide) (by decide) (Or.inl rfl) (by decide),
   c5_amended_header_semantics.2.2.1 (("Foo ").toList) (("Ordinal").toList) (("x\n").toList)
     (by decide) (by decide) (Or.inr rfl),
   c5_amended_header_semantics.2.2.2 [("Nominal").toList, ("Ordinal").toList] true
     (("Foo (Nominal):\n").toList) (("Foo ").toList) (("Nominal").toList) (by decide)⟩

/-- C9: load_variables maps the parsed definitions in order, pairing each
name with an attributes record holding its kind and, exactly when the
definition carries a values key, its values; is_qualitative holds exactly
for kinds Nominal and Ordinal and is_quantitative exactly for Discrete
and Continuous. -/
theorem c9_loader_and_predicates :
    (∀ defs : List Definition, (defs.map Definition.name).Nodup →
       Utils.load_variables defs = defs.map Utils.make_pair)
    ∧ (∀ d : Definition, Utils.make_pair d = (d.name, ⟨d.kind, d.values⟩))
    ∧ (∀ a : Utils.Attrs, Utils.is_qualitative a = true ↔ (a.kind = nominalK ∨ a.kind = ordinalK))
    ∧ (∀ a : Utils.Attrs,
        Utils.is_quantitative a = true ↔ (a.kind = discreteK ∨ a.kind = continuousK)) := by
  refine ⟨?_, fun d => rfl, ?_, ?_⟩
  · intro defs hnd
    unfold Utils.load_variables
    rw [load_variables_aux defs [] (by simp) hnd]
    simp
  · intro a
    simp only [Utils.is_qualitative, List.contains, List.elem_eq_mem, decide_eq_true_eq,
      List.mem_cons, List.not_mem_nil, or_false]
    exact Iff.rfl
  · intro a
    simp only [Utils.is_quantitative, List.contains, List.elem_eq_mem, decide_eq_true_eq,
      List.mem_cons, List.not_mem_nil, or_false]
    exact Iff.rfl

theorem c9_loader_and_predicates_witness :
    Utils.load_variables
        [⟨("Foo").toList, ("Nominal").toList, some [("A").toList]⟩,
         ⟨("Bar").toList, ("Discrete").toList, none⟩] =
      [⟨("Foo").toList, ("Nominal").toList, some [("A").toList]⟩,
       ⟨("Bar").toList, ("Discrete").toList, none⟩].map Utils.make_pair :=
  c9_loader_and_predicates.1
    [⟨("Foo").toList, ("Nominal").toList, some [("A").toList]⟩,
     ⟨("Bar").toList, ("Discrete").toList, none⟩] (by decide)

theorem c10_own_values_witness :
    (ParseVariables.finalState []).values = []
    ∧ (⟨("Foo").toList, ("Nominal").toList, some []⟩ : Definition) ∈
        (ParseVariables.step ⟨true, ("Foo").toList, ("Nominal").toList, [], []⟩
          (("End.\n").toList)).defs
    ∧ (QualitativeVariables.finalState []).values = [] :=
  ⟨c10_own_values.1 [] rfl,
   c10_own_values.2.1 ⟨true, ("Foo").toList, ("Nominal").toList, [], []⟩ (("End.\n").toList)
     rfl (by decide) (by decide),
   c10_own_values.2.2.1 [] rfl⟩
